import Mathlib

/-!
Verification of the procgenac training loop (`procgenac/modelling/training.py`).

The file embeds, in Lean, the data model and the operations of the
rollout-and-update loop: the trajectory storage's return/advantage
computation and minibatch generator (the `Storage` class is declared in
`procgenac.utils`, outside the provided sources, so those operations are
modelled from the specification's formulas), the rollout collector, the
training loop's step accounting, gradient clipping, and the evaluation
runner.  Tensor arithmetic is modelled over ℚ (exact rationals); the
vectorized `[num_steps, num_envs]` tensors are modelled column-wise: the
return/advantage recursion is elementwise across environment instances, so
one column (a list over time for a fixed instance) captures every
(time, env-instance) cell.
-/

namespace Procgenac

/-- One (time, env-instance) cell of the rollout window, holding the fields
of a stored transition that enter the return/advantage computation. -/
structure Cell where
  reward : ℚ
  value : ℚ
  done : Bool
  deriving DecidableEq, Repr, Inhabited

/-- The factor `(1 - done_t)` that zeroes out bootstrapping across episode
boundaries. -/
def Cell.mask (c : Cell) : ℚ := 1 - (if c.done then 1 else 0)

/-- Value estimate of the step following the current one: the next stored
cell's value, or the bootstrap value recorded by `store_last` when the
current step is the last of the window. -/
def nextValue (vboot : ℚ) : List Cell → ℚ
  | [] => vboot
  | c :: _ => c.value

/-- Modelled from the spec: the residual table computed by
`Storage.compute_return_advantage` (absent from the provided sources),
`delta_t = reward_t + gamma * value_(t+1) * (1 - done_t) - value_t`,
for one environment-instance column of the rollout window. -/
def compute_delta (gamma vboot : ℚ) : List Cell → List ℚ
  | [] => []
  | c :: rest =>
      (c.reward + gamma * nextValue vboot rest * c.mask - c.value)
        :: compute_delta gamma vboot rest

/-- Modelled from the spec: the advantage table computed by
`Storage.compute_return_advantage` (absent from the provided sources) by
backward recursion `A_t = delta_t + gamma * lam * (1 - done_t) * A_(t+1)`,
seeded past the window from the bootstrap value (`value_(num_steps)` is the
bootstrap value, `A_(num_steps) = 0`), for one environment-instance
column. -/
def compute_advantage (gamma lam vboot : ℚ) : List Cell → List ℚ
  | [] => []
  | c :: rest =>
      let a := compute_advantage gamma lam vboot rest
      (c.reward + gamma * nextValue vboot rest * c.mask - c.value
          + gamma * lam * c.mask * a.headD 0) :: a

/-- Modelled from the spec: the return table of
`Storage.compute_return_advantage`, `R_t = A_t + value_t` cellwise. -/
def compute_return (gamma lam vboot : ℚ) (l : List Cell) : List ℚ :=
  List.zipWith (· + ·) (compute_advantage gamma lam vboot l) (l.map Cell.value)

theorem length_compute_delta (gamma vboot : ℚ) (l : List Cell) :
    (compute_delta gamma vboot l).length = l.length := by
  induction l with
  | nil => rfl
  | cons c rest ih => simp [compute_delta, ih]

theorem length_compute_advantage (gamma lam vboot : ℚ) (l : List Cell) :
    (compute_advantage gamma lam vboot l).length = l.length := by
  induction l with
  | nil => rfl
  | cons c rest ih => simp [compute_advantage, ih]

theorem length_compute_return (gamma lam vboot : ℚ) (l : List Cell) :
    (compute_return gamma lam vboot l).length = l.length := by
  simp [compute_return, length_compute_advantage]

theorem compute_delta_getD (gamma vboot : ℚ) (l : List Cell) (t : ℕ) (ht : t < l.length) :
    (compute_delta gamma vboot l).getD t 0
      = (l.getD t default).reward
        + gamma * (if t + 1 < l.length then (l.getD (t + 1) default).value else vboot)
            * (l.getD t default).mask
        - (l.getD t default).value := by
  induction l generalizing t with
  | nil => simp at ht
  | cons c rest ih =>
    cases t with
    | zero =>
      cases rest with
      | nil => simp [compute_delta, nextValue]
      | cons c2 r2 => simp [compute_delta, nextValue]
    | succ t =>
      have ht' : t < rest.length := by simpa using ht
      have hcond : (t + 1 + 1 < (c :: rest).length) = (t + 1 < rest.length) := by
        simp [Nat.succ_lt_succ_iff]
      simp only [compute_delta, List.getD_cons_succ, hcond]
      exact ih t ht'

theorem compute_advantage_getD (gamma lam vboot : ℚ) (l : List Cell) (t : ℕ)
    (ht : t < l.length) :
    (compute_advantage gamma lam vboot l).getD t 0
      = (compute_delta gamma vboot l).getD t 0
        + gamma * lam * (l.getD t default).mask
            * (compute_advantage gamma lam vboot l).getD (t + 1) 0 := by
  induction l generalizing t with
  | nil => simp at ht
  | cons c rest ih =>
    cases t with
    | zero =>
      have hhead : ∀ L : List ℚ, L.headD 0 = L.getD 0 0 := by
        intro L; cases L <;> rfl
      show (compute_advantage gamma lam vboot (c :: rest)).getD 0 0
          = (compute_delta gamma vboot (c :: rest)).getD 0 0
            + gamma * lam * ((c :: rest).getD 0 default).mask
                * (compute_advantage gamma lam vboot (c :: rest)).getD 1 0
      simp only [compute_advantage, compute_delta, List.getD_cons_zero, List.getD_cons_succ]
      rw [hhead]
    | succ t =>
      have ht' : t < rest.length := by simpa using ht
      simp only [compute_advantage, compute_delta, List.getD_cons_succ]
      exact ih t ht'

theorem compute_return_getD (gamma lam vboot : ℚ) (l : List Cell) (t : ℕ)
    (ht : t < l.length) :
    (compute_return gamma lam vboot l).getD t 0
      = (compute_advantage gamma lam vboot l).getD t 0 + (l.getD t default).value := by
  induction l generalizing t with
  | nil => simp at ht
  | cons c rest ih =>
    cases t with
    | zero => simp [compute_return, compute_advantage]
    | succ t =>
      have ht' : t < rest.length := by simpa using ht
      simpa [compute_return, compute_advantage] using ih t ht'

theorem compute_delta_getD_done (gamma vboot : ℚ) (l : List Cell) (t : ℕ)
    (ht : t < l.length) (hd : (l.getD t default).done = true) :
    (compute_delta gamma vboot l).getD t 0
      = (l.getD t default).reward - (l.getD t default).value := by
  have hm : (l.getD t default).mask = 0 := by
    simp only [Cell.mask, hd]
    norm_num
  rw [compute_delta_getD gamma vboot l t ht, hm]
  ring

theorem compute_advantage_getD_done (gamma lam vboot : ℚ) (l : List Cell) (t : ℕ)
    (ht : t < l.length) (hd : (l.getD t default).done = true) :
    (compute_advantage gamma lam vboot l).getD t 0
      = (l.getD t default).reward - (l.getD t default).value := by
  have hm : (l.getD t default).mask = 0 := by
    simp only [Cell.mask, hd]
    norm_num
  rw [compute_advantage_getD gamma lam vboot l t ht,
    compute_delta_getD_done gamma vboot l t ht hd, hm]
  ring

/-- The concrete rollout column of the spec's episode-boundary test:
num_steps = 3, one environment instance, rewards [1,1,1], values [0,0,0],
done = [false, true, false]. -/
def demoCells : List Cell := [⟨1, 0, false⟩, ⟨1, 0, true⟩, ⟨1, 0, false⟩]

/-- C1: at every cell whose done flag is true the advantage equals the
residual delta and depends only on that cell (hence not on `value_(t+1)` or
`A_(t+1)`); concretely, for rewards [1,1,1], values [0,0,0],
done = [false,true,false], bootstrap 0, gamma = 0.99, lam = 0.95, the
advantage at step 1 equals exactly 1. -/
theorem advantage_done_isolation :
    (∀ (gamma lam vboot : ℚ) (l : List Cell) (t : ℕ),
        t < l.length → (l.getD t default).done = true →
          (compute_advantage gamma lam vboot l).getD t 0
              = (compute_delta gamma vboot l).getD t 0
            ∧ (compute_advantage gamma lam vboot l).getD t 0
              = (l.getD t default).reward - (l.getD t default).value)
    ∧ (∀ (gamma lam vb1 vb2 : ℚ) (l1 l2 : List Cell) (t : ℕ),
        t < l1.length → t < l2.length →
        l1.getD t default = l2.getD t default →
        (l1.getD t default).done = true →
          (compute_advantage gamma lam vb1 l1).getD t 0
            = (compute_advantage gamma lam vb2 l2).getD t 0)
    ∧ (compute_advantage (99/100) (19/20) 0 demoCells).getD 1 0 = 1 := by
  refine ⟨?_, ?_, ?_⟩
  · intro gamma lam vboot l t ht hd
    refine ⟨?_, compute_advantage_getD_done gamma lam vboot l t ht hd⟩
    rw [compute_advantage_getD_done gamma lam vboot l t ht hd,
      compute_delta_getD_done gamma vboot l t ht hd]
  · intro gamma lam vb1 vb2 l1 l2 t ht1 ht2 hcell hd
    rw [compute_advantage_getD_done gamma lam vb1 l1 t ht1 hd,
      compute_advantage_getD_done gamma lam vb2 l2 t ht2 (hcell ▸ hd), hcell]
  · norm_num [demoCells, compute_advantage, compute_delta, nextValue, Cell.mask]

/-- Witness for C1 at the spec's concrete instance: step 1 of `demoCells`
has the done flag set, and there the advantage equals the residual and
equals reward minus value. -/
theorem advantage_done_isolation_witness :
    (1 < demoCells.length ∧ (demoCells.getD 1 default).done = true)
    ∧ ((compute_advantage (99/100) (19/20) 0 demoCells).getD 1 0
          = (compute_delta (99/100) 0 demoCells).getD 1 0
        ∧ (compute_advantage (99/100) (19/20) 0 demoCells).getD 1 0
          = (demoCells.getD 1 default).reward - (demoCells.getD 1 default).value) :=
  ⟨⟨by decide, by decide⟩,
    advantage_done_isolation.1 (99/100) (19/20) 0 demoCells 1 (by decide) (by decide)⟩

/-- C2: for every rollout column, `compute_return_advantage` satisfies, at
every index t of the window, the backward recursion
`delta_t = reward_t + gamma * value_(t+1) * (1 - done_t) - value_t`
(with `value_(num_steps)` the bootstrap value),
`A_t = delta_t + gamma * lam * (1 - done_t) * A_(t+1)`
(the advantage past the window reading as 0, i.e. the recursion seeded from
the bootstrap value), and `R_t = A_t + value_t` exactly. -/
theorem compute_return_advantage_spec :
    ∀ (gamma lam vboot : ℚ) (l : List Cell) (t : ℕ), t < l.length →
      (compute_delta gamma vboot l).getD t 0
          = (l.getD t default).reward
            + gamma * (if t + 1 < l.length then (l.getD (t + 1) default).value else vboot)
                * (l.getD t default).mask
            - (l.getD t default).value
      ∧ (compute_advantage gamma lam vboot l).getD t 0
          = (compute_delta gamma vboot l).getD t 0
            + gamma * lam * (l.getD t default).mask
                * (compute_advantage gamma lam vboot l).getD (t + 1) 0
      ∧ (compute_return gamma lam vboot l).getD t 0
          = (compute_advantage gamma lam vboot l).getD t 0 + (l.getD t default).value :=
  fun gamma lam vboot l t ht =>
    ⟨compute_delta_getD gamma vboot l t ht,
      compute_advantage_getD gamma lam vboot l t ht,
      compute_return_getD gamma lam vboot l t ht⟩

/-- Witness for C2 at a concrete two-step column with a done flag at the
second step and a nonzero bootstrap value. -/
theorem compute_return_advantage_spec_witness :
    (0 < ([⟨2, 5, false⟩, ⟨3, 7, true⟩] : List Cell).length)
    ∧ ((compute_delta (1/2) 11 [⟨2, 5, false⟩, ⟨3, 7, true⟩]).getD 0 0
          = (([⟨2, 5, false⟩, ⟨3, 7, true⟩] : List Cell).getD 0 default).reward
            + (1/2) * (if 0 + 1 < ([⟨2, 5, false⟩, ⟨3, 7, true⟩] : List Cell).length
                  then (([⟨2, 5, false⟩, ⟨3, 7, true⟩] : List Cell).getD (0 + 1) default).value
                  else 11)
                * (([⟨2, 5, false⟩, ⟨3, 7, true⟩] : List Cell).getD 0 default).mask
            - (([⟨2, 5, false⟩, ⟨3, 7, true⟩] : List Cell).getD 0 default).value
        ∧ (compute_advantage (1/2) (1/3) 11 [⟨2, 5, false⟩, ⟨3, 7, true⟩]).getD 0 0
          = (compute_delta (1/2) 11 [⟨2, 5, false⟩, ⟨3, 7, true⟩]).getD 0 0
            + (1/2) * (1/3) * (([⟨2, 5, false⟩, ⟨3, 7, true⟩] : List Cell).getD 0 default).mask
                * (compute_advantage (1/2) (1/3) 11 [⟨2, 5, false⟩, ⟨3, 7, true⟩]).getD (0 + 1) 0
        ∧ (compute_return (1/2) (1/3) 11 [⟨2, 5, false⟩, ⟨3, 7, true⟩]).getD 0 0
          = (compute_advantage (1/2) (1/3) 11 [⟨2, 5, false⟩, ⟨3, 7, true⟩]).getD 0 0
            + (([⟨2, 5, false⟩, ⟨3, 7, true⟩] : List Cell).getD 0 default).value) :=
  ⟨by decide,
    compute_return_advantage_spec (1/2) (1/3) 11 [⟨2, 5, false⟩, ⟨3, 7, true⟩] 0 (by decide)⟩

/-- Modelled from the spec: chunking of an index list into consecutive
batches of `bs` indices, the final partial batch included.  The first
argument is fuel bounding the recursion depth; `get_generator` supplies the
list's length, which suffices whenever `bs ≥ 1`. -/
def listChunks (bs : ℕ) : ℕ → List ℕ → List (List ℕ)
  | 0, _ => []
  | _ + 1, [] => []
  | fuel + 1, x :: xs => (x :: xs).take bs :: listChunks bs fuel ((x :: xs).drop bs)

/-- Modelled from the spec: `Storage.get_generator` (absent from the
provided sources) draws a fresh random permutation of all
`num_steps * num_envs` flattened indices and partitions it into minibatches
of `batch_size`.  The permutation is modelled as an explicit argument: the
randomness is external, and every property below holds for every
permutation the sampler may draw. -/
def get_generator (batchSize : ℕ) (perm : List ℕ) : List (List ℕ) :=
  listChunks batchSize perm.length perm

/-- The update loop of `train_model` (training.py lines 167-172): one fresh
generator is constructed per epoch, each from its own freshly drawn
permutation `perms e`. -/
def epoch_generators (numEpochs batchSize : ℕ) (perms : ℕ → List ℕ) : List (List (List ℕ)) :=
  (List.range numEpochs).map (fun e => get_generator batchSize (perms e))

theorem listChunks_flatten (bs : ℕ) (hbs : 1 ≤ bs) :
    ∀ (fuel : ℕ) (l : List ℕ), l.length ≤ fuel → (listChunks bs fuel l).flatten = l := by
  intro fuel
  induction fuel with
  | zero =>
    intro l hl
    have : l = [] := List.length_eq_zero.mp (Nat.le_zero.mp hl)
    simp [this, listChunks]
  | succ fuel ih =>
    intro l hl
    cases l with
    | nil => simp [listChunks]
    | cons x xs =>
      have hdrop : ((x :: xs).drop bs).length ≤ fuel := by
        simp only [List.length_drop, List.length_cons]
        simp only [List.length_cons] at hl
        omega
      simp only [listChunks, List.flatten_cons, ih ((x :: xs).drop bs) hdrop]
      exact List.take_append_drop bs (x :: xs)

theorem listChunks_batch_bounds (bs : ℕ) (hbs : 1 ≤ bs) :
    ∀ (fuel : ℕ) (l : List ℕ) (b : List ℕ), b ∈ listChunks bs fuel l →
      b.length ≤ bs ∧ b ≠ [] := by
  intro fuel
  induction fuel with
  | zero => intro l b hb; simp [listChunks] at hb
  | succ fuel ih =>
    intro l b hb
    cases l with
    | nil => simp [listChunks] at hb
    | cons x xs =>
      simp only [listChunks, List.mem_cons] at hb
      rcases hb with hb | hb
      · subst hb
        refine ⟨by simp, ?_⟩
        have : bs ≠ 0 := by omega
        simp [List.take_eq_nil_iff, this]
      · exact ih ((x :: xs).drop bs) b hb

/-- C3: for every batch size at least 1 and every permutation of the N
flattened rollout indices, get_generator yields a finite sequence of
minibatches whose concatenation is exactly the permutation, hence a
partition of all N indices (every index once, final partial batch
included, each batch of at most batch_size indices and nonempty); the
update loop builds one generator per epoch, each from its epoch's own
permutation. -/
theorem get_generator_covers :
    ∀ (batchSize N : ℕ) (perm : List ℕ), 1 ≤ batchSize → perm.Perm (List.range N) →
      ((get_generator batchSize perm).flatten = perm
        ∧ (get_generator batchSize perm).flatten.Perm (List.range N)
        ∧ ∀ b ∈ get_generator batchSize perm, b.length ≤ batchSize ∧ b ≠ [])
      ∧ ∀ (numEpochs : ℕ) (perms : ℕ → List ℕ),
          (epoch_generators numEpochs batchSize perms).length = numEpochs
          ∧ ∀ e, e < numEpochs →
              (epoch_generators numEpochs batchSize perms).getD e []
                = get_generator batchSize (perms e) := by
  intro batchSize N perm hbs hperm
  have hflat : (get_generator batchSize perm).flatten = perm :=
    listChunks_flatten batchSize hbs perm.length perm le_rfl
  refine ⟨⟨hflat, by rw [hflat]; exact hperm, ?_⟩, ?_⟩
  · intro b hb
    exact listChunks_batch_bounds batchSize hbs perm.length perm b hb
  · intro numEpochs perms
    constructor
    · simp [epoch_generators]
    · intro e he
      simp [epoch_generators, List.getD_eq_getElem?_getD, he]

/-- Witness for C3: batch size 2 over the permutation [2, 0, 1] of the
indices 0..2 splits into [[2, 0], [1]] and covers every index exactly
once. -/
theorem get_generator_covers_witness :
    (1 ≤ 2 ∧ ([2, 0, 1] : List ℕ).Perm (List.range 3))
    ∧ (get_generator 2 [2, 0, 1]).flatten = [2, 0, 1]
    ∧ (get_generator 2 [2, 0, 1]).flatten.Perm (List.range 3) :=
  ⟨⟨by decide, by decide⟩,
    (get_generator_covers 2 3 [2, 0, 1] (by decide) (by decide)).1.1,
    (get_generator_covers 2 3 [2, 0, 1] (by decide) (by decide)).1.2.1⟩

/-- The policy model as the training loop sees it: a parameter blob, the
train/eval mode flag, and `act` mapping an observation to
(action, log-probability, value estimate), read-only in the parameters. -/
structure PolicyModel (P Obs Act : Type) where
  params : P
  training : Bool
  actFn : P → Obs → Act × ℚ × ℚ

/-- One call into the trajectory storage during rollout collection:
`store(obs, action, reward, done, info, log_prob, value)` or
`store_last(obs, value)` (training.py lines 136 and 160). -/
inductive StoreOp (Obs Act Info : Type) where
  | store (obs : Obs) (action : Act) (reward : ℚ) (done : Bool) (info : Info)
      (log_prob value : ℚ)
  | store_last (obs : Obs) (value : ℚ)

def StoreOp.isStore : StoreOp Obs Act Info → Bool
  | .store _ _ _ _ _ _ _ => true
  | .store_last _ _ => false

def StoreOp.isStoreLast : StoreOp Obs Act Info → Bool
  | .store _ _ _ _ _ _ _ => false
  | .store_last _ _ => true

@[simp] theorem StoreOp.isStore_store {Obs Act Info : Type} (o : Obs) (a : Act) (r : ℚ)
    (d : Bool) (i : Info) (lp v : ℚ) :
    (StoreOp.store o a r d i lp v).isStore = true := rfl

@[simp] theorem StoreOp.isStore_store_last {Obs Act Info : Type} (o : Obs) (v : ℚ) :
    (StoreOp.store_last o v : StoreOp Obs Act Info).isStore = false := rfl

@[simp] theorem StoreOp.isStoreLast_store {Obs Act Info : Type} (o : Obs) (a : Act) (r : ℚ)
    (d : Bool) (i : Info) (lp v : ℚ) :
    (StoreOp.store o a r d i lp v).isStoreLast = false := rfl

@[simp] theorem StoreOp.isStoreLast_store_last {Obs Act Info : Type} (o : Obs) (v : ℚ) :
    (StoreOp.store_last o v : StoreOp Obs Act Info).isStoreLast = true := rfl

theorem getLast_ask_cons_ne_nil {α : Type} (x : α) {l : List α} (h : l ≠ []) :
    (x :: l).getLast? = l.getLast? := by
  obtain ⟨y, ys, rfl⟩ := List.exists_cons_of_ne_nil h
  exact List.getLast?_cons_cons

theorem dropLast_cons_ne_nil {α : Type} (x : α) {l : List α} (h : l ≠ []) :
    (x :: l).dropLast = x :: l.dropLast := by
  obtain ⟨y, ys, rfl⟩ := List.exists_cons_of_ne_nil h
  simp

/-- The rollout collection phase of one `train_model` iteration
(training.py lines 127-139 and 158-160): for each of `num_steps`
iterations, query the policy, step the environment (`stepFn` returns the
successor environment state together with next_obs, reward, done, info),
and store the transition; afterwards query the policy once more on the
final observation and record the bootstrap pair via `store_last`.  The
result is (storage call sequence, number of env.step calls, final
environment state, final observation). -/
def collectRollout (m : PolicyModel P Obs Act)
    (stepFn : ES → Act → ES × Obs × ℚ × Bool × Info) :
    ℕ → ES → Obs → List (StoreOp Obs Act Info) × ℕ × ES × Obs
  | 0, es, obs => ([StoreOp.store_last obs (m.actFn m.params obs).2.2], 0, es, obs)
  | n + 1, es, obs =>
      let a := m.actFn m.params obs
      let s := stepFn es a.1
      let rest := collectRollout m stepFn n s.1 s.2.1
      (StoreOp.store obs a.1 s.2.2.1 s.2.2.2.1 s.2.2.2.2 a.2.1 a.2.2 :: rest.1,
        rest.2.1 + 1, rest.2.2.1, rest.2.2.2)

/-- C4: each training-loop iteration's rollout performs exactly `num_steps`
`store` calls followed by exactly one `store_last`, whose arguments are the
observation following the last stored transition and the policy's value
estimate on it, and the environment is stepped exactly `num_steps` times
(never with the bootstrap action). -/
theorem rollout_store_discipline {P Obs Act Info ES : Type}
    (m : PolicyModel P Obs Act) (stepFn : ES → Act → ES × Obs × ℚ × Bool × Info)
    (n : ℕ) (es : ES) (obs : Obs) :
    (collectRollout m stepFn n es obs).1.countP (fun op => op.isStore) = n
    ∧ (collectRollout m stepFn n es obs).1.countP (fun op => op.isStoreLast) = 1
    ∧ (collectRollout m stepFn n es obs).2.1 = n
    ∧ (collectRollout m stepFn n es obs).1.getLast?
        = some (StoreOp.store_last (collectRollout m stepFn n es obs).2.2.2
            (m.actFn m.params (collectRollout m stepFn n es obs).2.2.2).2.2)
    ∧ ∀ op ∈ (collectRollout m stepFn n es obs).1.dropLast, op.isStore = true := by
  induction n generalizing es obs with
  | zero =>
    simp [collectRollout, List.countP_cons, StoreOp.isStore, StoreOp.isStoreLast]
  | succ n ih =>
    obtain ⟨h1, h2, h3, h4, h5⟩ :=
      ih (stepFn es (m.actFn m.params obs).1).1 (stepFn es (m.actFn m.params obs).1).2.1
    have hne : (collectRollout m stepFn n (stepFn es (m.actFn m.params obs).1).1
        (stepFn es (m.actFn m.params obs).1).2.1).1 ≠ [] := by
      intro h
      rw [h] at h4
      simp at h4
    refine ⟨?_, ?_, ?_, ?_, ?_⟩
    · simp only [collectRollout]
      simp [List.countP_cons, h1]
    · simp only [collectRollout]
      simp [List.countP_cons, h2]
    · simp only [collectRollout]
      simp [h3]
    · simp only [collectRollout]
      rw [getLast_ask_cons_ne_nil _ hne]
      exact h4
    · simp only [collectRollout]
      rw [dropLast_cons_ne_nil _ hne]
      intro op hop
      rcases List.mem_cons.mp hop with hop | hop
      · subst hop; rfl
      · exact h5 op hop

/-- The logging cadence of `train_model` (training.py line 123):
`update_ite = total_steps // (env.num_envs * num_steps * 100) + 1`. -/
def update_ite (numEnvs numSteps totalSteps : ℕ) : ℕ :=
  totalSteps / (numEnvs * numSteps * 100) + 1

/-- The step accounting of the `while step < total_steps` loop of
`train_model` (training.py lines 121-190): `k = env.num_envs * num_steps`
is added to the step counter each iteration, `n` counts update iterations,
and `stats` records the step values at which the stats branch
(`n_updates % update_ite == 0`) appended to `steps`/`train_rewards`.
The guard `0 < k` encodes the termination precondition (at least one
environment instance and one rollout step); the loop body exits only when
the counter reaches the budget. -/
def trainLoop (k ui T s n : ℕ) (stats : List ℕ) : ℕ × ℕ × List ℕ :=
  if h : 0 < k ∧ s < T then
    trainLoop k ui T (s + k) (n + 1) (if n % ui = 0 then stats ++ [s] else stats)
  else (s, n, stats)
termination_by T - s
decreasing_by omega

/-- The training loop of `train_model` started from `step = 0`,
`n_updates = 0`, empty stats, with the source's `update_ite`. -/
def train_loop_result (numEnvs numSteps totalSteps : ℕ) : ℕ × ℕ × List ℕ :=
  trainLoop (numEnvs * numSteps) ( update_ite numEnvs numSteps totalSteps)
    totalSteps 0 0 []

theorem trainLoop_char :
    ∀ (k ui T s n : ℕ) (stats : List ℕ), 0 < k →
      ∃ i : ℕ,
        (trainLoop k ui T s n stats).1 = s + k * i
        ∧ (trainLoop k ui T s n stats).2.1 = n + i
        ∧ T ≤ (trainLoop k ui T s n stats).1
        ∧ (∀ j, j < i → s + k * j < T)
        ∧ (T ≤ s ∨ (trainLoop k ui T s n stats).1 < T + k)
        ∧ ∃ tl, (trainLoop k ui T s n stats).2.2 = stats ++ tl := by
  intro k ui T s n stats
  induction s, n, stats using trainLoop.induct k ui T with
  | case1 s n stats h ih =>
    intro hk
    obtain ⟨i, h1, h2, h3, h4, h5, tl, h6⟩ := ih hk
    simp only [dite_eq_ite] at h1 h2 h3 h5 h6
    rw [trainLoop, dif_pos h]
    refine ⟨i + 1, ?_, ?_, h3, ?_, ?_, ?_⟩
    · rw [h1]; ring
    · rw [h2]; omega
    · intro j hj
      cases j with
      | zero => simpa using h.2
      | succ j' =>
        have e : s + k * (j' + 1) = s + k + k * j' := by ring
        rw [e]
        exact h4 j' (by omega)
    · right
      rcases h5 with h5 | h5
      · have hi : i = 0 := by
          by_contra hne
          have h0 := h4 0 (by omega)
          simp only [Nat.mul_zero, Nat.add_zero] at h0
          omega
        rw [h1, hi]
        simp only [Nat.mul_zero, Nat.add_zero]
        omega
      · exact h5
    · by_cases hmod : n % ui = 0
      · refine ⟨[s] ++ tl, ?_⟩
        rw [h6, if_pos hmod, List.append_assoc]
      · refine ⟨tl, ?_⟩
        rw [h6, if_neg hmod]
  | case2 s n stats h =>
    intro hk
    rw [trainLoop, dif_neg h]
    have hTs : T ≤ s := by omega
    refine ⟨0, by simp, by simp, by simpa using hTs, ?_, Or.inl hTs, [], by simp⟩
    intro j hj
    exact absurd hj (Nat.not_lt_zero j)

/-- C5: for at least one environment instance and one rollout step per
iteration, the training loop of `train_model` terminates (it is a total
function of its inputs), the step counter starts at 0 and grows by
`num_envs * num_steps` per iteration, the loop exits exactly when the
counter reaches or exceeds `total_steps` (the final counter is the
iteration count times the per-iteration increment and is at least the
budget), and no earlier iteration could have exited (every strictly
earlier counter value was below the budget). -/
theorem training_loop_exit_condition (numEnvs numSteps totalSteps : ℕ)
    (he : 1 ≤ numEnvs) (hs : 1 ≤ numSteps) :
    (train_loop_result numEnvs numSteps totalSteps).1
        = numEnvs * numSteps * (train_loop_result numEnvs numSteps totalSteps).2.1
    ∧ totalSteps ≤ (train_loop_result numEnvs numSteps totalSteps).1
    ∧ ∀ j, j < (train_loop_result numEnvs numSteps totalSteps).2.1 →
        numEnvs * numSteps * j < totalSteps := by
  have hk : 0 < numEnvs * numSteps := Nat.mul_pos he hs
  obtain ⟨i, h1, h2, h3, h4, _, _⟩ :=
    trainLoop_char (numEnvs * numSteps) ( update_ite numEnvs numSteps totalSteps)
      totalSteps 0 0 [] hk
  unfold train_loop_result
  rw [h1] at h3
  rw [h1, h2]
  refine ⟨by simp, by simpa using h3, ?_⟩
  intro j hj
  have := h4 j (by omega)
  simpa using this

/-- Witness for C5 with two environment instances, three rollout steps and
a budget of seven steps. -/
theorem training_loop_exit_condition_witness :
    (1 ≤ 2 ∧ 1 ≤ 3)
    ∧ ((train_loop_result 2 3 7).1 = 2 * 3 * (train_loop_result 2 3 7).2.1
        ∧ 7 ≤ (train_loop_result 2 3 7).1
        ∧ ∀ j, j < (train_loop_result 2 3 7).2.1 → 2 * 3 * j < 7) :=
  ⟨⟨by decide, by decide⟩, training_loop_exit_condition 2 3 7 (by decide) (by decide)⟩

/-- C9: the final value of the step counter is the smallest multiple of
`num_envs * num_steps` that is at least `total_steps`; hence the collected
transitions overshoot the budget by at most `num_envs * num_steps - 1`. -/
theorem training_loop_final_step_least_multiple (numEnvs numSteps totalSteps : ℕ)
    (he : 1 ≤ numEnvs) (hs : 1 ≤ numSteps) (ht : 1 ≤ totalSteps) :
    (train_loop_result numEnvs numSteps totalSteps).1 % (numEnvs * numSteps) = 0
    ∧ totalSteps ≤ (train_loop_result numEnvs numSteps totalSteps).1
    ∧ (∀ m, m % (numEnvs * numSteps) = 0 → totalSteps ≤ m →
        (train_loop_result numEnvs numSteps totalSteps).1 ≤ m)
    ∧ (train_loop_result numEnvs numSteps totalSteps).1 - totalSteps
        ≤ numEnvs * numSteps - 1 := by
  have hk : 0 < numEnvs * numSteps := Nat.mul_pos he hs
  obtain ⟨i, h1, h2, h3, h4, h5, _⟩ :=
    trainLoop_char (numEnvs * numSteps) ( update_ite numEnvs numSteps totalSteps)
      totalSteps 0 0 [] hk
  unfold train_loop_result
  have hlt : (trainLoop (numEnvs * numSteps) ( update_ite numEnvs numSteps totalSteps)
      totalSteps 0 0 []).1 < totalSteps + numEnvs * numSteps := by
    rcases h5 with h5 | h5
    · omega
    · exact h5
  refine ⟨?_, h3, ?_, by omega⟩
  · rw [h1]
    simp [Nat.mul_mod_right]
  · intro m hm hTm
    obtain ⟨j, hj⟩ := Nat.dvd_of_mod_eq_zero hm
    have hij : i < j + 1 := by
      have : numEnvs * numSteps * i < numEnvs * numSteps * (j + 1) := by
        have e1 : (trainLoop (numEnvs * numSteps)
            ( update_ite numEnvs numSteps totalSteps) totalSteps 0 0 []).1
            = numEnvs * numSteps * i := by rw [h1]; ring
        rw [e1] at hlt
        calc numEnvs * numSteps * i
            < totalSteps + numEnvs * numSteps := hlt
          _ ≤ m + numEnvs * numSteps := by omega
          _ = numEnvs * numSteps * (j + 1) := by rw [hj]; ring
      exact Nat.lt_of_mul_lt_mul_left this
    rw [h1, hj]
    have : numEnvs * numSteps * i ≤ numEnvs * numSteps * j :=
      Nat.mul_le_mul_left _ (by omega)
    omega

/-- Witness for C9 with two environment instances, three rollout steps and
a budget of seven steps: the loop exits at the smallest multiple of six
that reaches seven. -/
theorem training_loop_final_step_least_multiple_witness :
    (1 ≤ 2 ∧ 1 ≤ 3 ∧ 1 ≤ 7)
    ∧ ((train_loop_result 2 3 7).1 % (2 * 3) = 0
        ∧ 7 ≤ (train_loop_result 2 3 7).1
        ∧ (∀ m, m % (2 * 3) = 0 → 7 ≤ m → (train_loop_result 2 3 7).1 ≤ m)
        ∧ (train_loop_result 2 3 7).1 - 7 ≤ 2 * 3 - 1) :=
  ⟨⟨by decide, by decide, by decide⟩,
    training_loop_final_step_least_multiple 2 3 7 (by decide) (by decide) (by decide)⟩

/-- C10: `update_ite` is always at least 1, `0 % update_ite = 0`, so the
very first loop iteration records stats; whenever `total_steps ≥ 1` (and
at least one environment instance and rollout step) the recorded stats
list is non-empty when the loop exits — the `torch.stack` calls after the
loop never see an empty list — and its first entry is step 0. -/
theorem training_stats_nonempty (numEnvs numSteps totalSteps : ℕ)
    (he : 1 ≤ numEnvs) (hs : 1 ≤ numSteps) (ht : 1 ≤ totalSteps) :
    1 ≤ update_ite numEnvs numSteps totalSteps
    ∧ 0 % update_ite numEnvs numSteps totalSteps = 0
    ∧ (train_loop_result numEnvs numSteps totalSteps).2.2 ≠ []
    ∧ (train_loop_result numEnvs numSteps totalSteps).2.2.headD 1 = 0 := by
  have hk : 0 < numEnvs * numSteps := Nat.mul_pos he hs
  have hfirst : train_loop_result numEnvs numSteps totalSteps
      = trainLoop (numEnvs * numSteps) ( update_ite numEnvs numSteps totalSteps)
          totalSteps (0 + numEnvs * numSteps) (0 + 1) [0] := by
    unfold train_loop_result
    rw [trainLoop, dif_pos ⟨hk, by omega⟩]
    simp
  obtain ⟨_, _, _, _, _, _, tl, htl⟩ :=
    trainLoop_char (numEnvs * numSteps) ( update_ite numEnvs numSteps totalSteps)
      totalSteps (0 + numEnvs * numSteps) (0 + 1) [0] hk
  refine ⟨by simp [update_ite], Nat.zero_mod _, ?_, ?_⟩
  · rw [hfirst, htl]
    simp
  · rw [hfirst, htl]
    simp

/-- Witness for C10 with two environment instances, three rollout steps and
a budget of seven steps. -/
theorem training_stats_nonempty_witness :
    (1 ≤ 2 ∧ 1 ≤ 3 ∧ 1 ≤ 7)
    ∧ (1 ≤ update_ite 2 3 7
        ∧ 0 % update_ite 2 3 7 = 0
        ∧ (train_loop_result 2 3 7).2.2 ≠ []
        ∧ (train_loop_result 2 3 7).2.2.headD 1 = 0) :=
  ⟨⟨by decide, by decide, by decide⟩,
    training_stats_nonempty 2 3 7 (by decide) (by decide) (by decide)⟩

/-- The evaluation loop of `evaluate_model` (training.py lines 206-213):
for each step, query the policy's action on the current observation, step
the evaluation environment, and record the per-step reward.  Rewards live
in an arbitrary additive commutative monoid so that the vectorized
per-environment-instance reward tensor (pointwise addition) is an
instance.  Returns (per-step reward list, final environment state, final
observation). -/
def evalSteps {Obs Act ES R : Type} [AddCommMonoid R] (actF : Obs → Act)
    (stepFn : ES → Act → ES × Obs × R) : ℕ → ES → Obs → List R × ES × Obs
  | 0, es, obs => ([], es, obs)
  | n + 1, es, obs =>
      let r := stepFn es (actF obs)
      let rest := evalSteps actF stepFn n r.1 r.2.1
      (r.2.2 :: rest.1, rest.2.1, rest.2.2)

/-- The evaluation runner `evaluate_model` (training.py lines 200-225):
puts the model in evaluation mode (`model.eval()` flips only the mode
flag), runs `num_steps` policy/environment steps, and returns the summed
reward (`torch.stack(total_reward).sum(0)`) together with the final
observation; the post-call model and environment state are returned
explicitly to express the call's side effects. -/
def evaluate_model {P Obs Act ES R : Type} [AddCommMonoid R]
    (m : PolicyModel P Obs Act) (stepFn : ES → Act → ES × Obs × R)
    (numSteps : ℕ) (es : ES) (obs : Obs) :
    (R × Obs) × PolicyModel P Obs Act × ES :=
  let m2 := { m with training := false }
  let r := evalSteps (fun o => (m2.actFn m2.params o).1) stepFn numSteps es obs
  ((r.1.sum, r.2.2), m2, r.2.1)

theorem evalSteps_add {Obs Act ES R : Type} [AddCommMonoid R] (actF : Obs → Act)
    (stepFn : ES → Act → ES × Obs × R) (n p : ℕ) :
    ∀ (es : ES) (obs : Obs),
      evalSteps actF stepFn (n + p) es obs
        = ((evalSteps actF stepFn n es obs).1
              ++ (evalSteps actF stepFn p (evalSteps actF stepFn n es obs).2.1
                    (evalSteps actF stepFn n es obs).2.2).1,
            (evalSteps actF stepFn p (evalSteps actF stepFn n es obs).2.1
                (evalSteps actF stepFn n es obs).2.2).2.1,
            (evalSteps actF stepFn p (evalSteps actF stepFn n es obs).2.1
                (evalSteps actF stepFn n es obs).2.2).2.2) := by
  induction n with
  | zero =>
    intro es obs
    simp [evalSteps]
  | succ n ih =>
    intro es obs
    have e : n + 1 + p = (n + p) + 1 := by omega
    rw [e]
    simp only [evalSteps]
    rw [ih]
    simp

/-- C6: `evaluate_model` returns the reward accumulated over its steps and
the final observation, so a subsequent call started from the returned
observation (and environment and model states) continues the same step
sequence: running n + p steps equals running n steps and then p steps from
where the first call left off, the total reward being the sum of the two
totals; and the call leaves the policy parameters (and the action
function) untouched — the optimizer is not even an input. -/
theorem evaluate_model_resume_frame {P Obs Act ES R : Type} [AddCommMonoid R]
    (m : PolicyModel P Obs Act) (stepFn : ES → Act → ES × Obs × R)
    (n p : ℕ) (es : ES) (obs : Obs) :
    (evaluate_model m stepFn (n + p) es obs).1.1
        = (evaluate_model m stepFn n es obs).1.1
          + (evaluate_model (evaluate_model m stepFn n es obs).2.1 stepFn p
              (evaluate_model m stepFn n es obs).2.2
              (evaluate_model m stepFn n es obs).1.2).1.1
    ∧ (evaluate_model m stepFn (n + p) es obs).1.2
        = (evaluate_model (evaluate_model m stepFn n es obs).2.1 stepFn p
            (evaluate_model m stepFn n es obs).2.2
            (evaluate_model m stepFn n es obs).1.2).1.2
    ∧ (evaluate_model m stepFn (n + p) es obs).2.2
        = (evaluate_model (evaluate_model m stepFn n es obs).2.1 stepFn p
            (evaluate_model m stepFn n es obs).2.2
            (evaluate_model m stepFn n es obs).1.2).2.2
    ∧ (evaluate_model m stepFn n es obs).2.1.params = m.params
    ∧ (evaluate_model m stepFn n es obs).2.1.actFn = m.actFn := by
  have key := evalSteps_add (fun o => (m.actFn m.params o).1) stepFn n p es obs
  refine ⟨?_, ?_, ?_, rfl, rfl⟩
  · simp only [evaluate_model]
    rw [key]
    simp
  · simp only [evaluate_model]
    rw [key]
  · simp only [evaluate_model]
    rw [key]

/-- Pointwise rescaling of a flattened gradient vector by a coefficient
(the `p.grad.mul_(clip_coef)` step of gradient clipping). -/
def scale_grads (c : ℚ) (g : List ℚ) : List ℚ := g.map (fun x => c * x)

/-- The semantics of `torch.nn.utils.clip_grad_norm_(params, max_norm)`
(training.py line 183, external collaborator): compute the global gradient
norm `normFn g`, form `clip_coef = max_norm / (total_norm + eps)` (torch
uses eps = 1e-6 to avoid dividing by zero), and rescale all gradients by
`clip_coef` when it is below 1.  The norm computation itself is the
numeric backend's and is abstracted as `normFn`, constrained in the
theorem below only by nonnegativity and positive homogeneity. -/
def clip_grad_norm (normFn : List ℚ → ℚ) (maxNorm eps : ℚ) (g : List ℚ) : List ℚ :=
  if maxNorm / (normFn g + eps) < 1 then scale_grads (maxNorm / (normFn g + eps)) g else g

/-- The per-minibatch optimization events of the update loop. -/
inductive UpdateEvent where
  | backwardE
  | clipGradsE
  | optimStepE
  | zeroGradE
  deriving DecidableEq, Repr

/-- The exact statement order of the per-minibatch update body
(training.py lines 180-187): backpropagate, clip gradients, one optimizer
step, reset gradients. -/
def minibatch_update_trace : List UpdateEvent :=
  [UpdateEvent.backwardE, UpdateEvent.clipGradsE, UpdateEvent.optimStepE, UpdateEvent.zeroGradE]

/-- C7: for every minibatch, after backpropagation the clipped global
gradient norm does not exceed `grad_eps` (for any nonnegative norm
functional that is positively homogeneous on the gradient at hand, any
nonnegative threshold and any nonnegative divisor offset), and the update
body applies exactly one optimizer step and resets gradients as its last
action before the next minibatch. -/
theorem grad_clip_bound (normFn : List ℚ → ℚ) (g : List ℚ) (maxNorm eps : ℚ)
    (hn : 0 ≤ normFn g) (hm : 0 ≤ maxNorm) (he : 0 ≤ eps)
    (hhom : ∀ c : ℚ, 0 ≤ c → normFn (scale_grads c g) = c * normFn g) :
    normFn (clip_grad_norm normFn maxNorm eps g) ≤ maxNorm
    ∧ minibatch_update_trace.count UpdateEvent.optimStepE = 1
    ∧ minibatch_update_trace.getLast? = some UpdateEvent.zeroGradE := by
  refine ⟨?_, by decide, by decide⟩
  unfold clip_grad_norm
  by_cases hc : maxNorm / (normFn g + eps) < 1
  · rw [if_pos hc, hhom _ (div_nonneg hm (by linarith))]
    rcases eq_or_lt_of_le (add_nonneg hn he) with h0 | h0
    · have htn0 : normFn g = 0 := by linarith
      rw [htn0, mul_zero]
      exact hm
    · rw [div_mul_eq_mul_div, div_le_iff₀ h0]
      have hstep : maxNorm * normFn g ≤ maxNorm * (normFn g + eps) :=
        mul_le_mul_of_nonneg_left (by linarith) hm
      linarith
  · rw [if_neg hc]
    push_neg at hc
    have hpos : 0 < normFn g + eps := by
      rcases eq_or_lt_of_le (add_nonneg hn he) with h0 | h0
      · exfalso
        rw [← h0, div_zero] at hc
        linarith
      · exact h0
    have := (le_div_iff₀ hpos).mp hc
    linarith

/-- Witness for C7 with the L1-style linear functional `List.sum` on the
gradient vector [3, 4], threshold 1 and offset 0. -/
theorem grad_clip_bound_witness :
    ((0:ℚ) ≤ List.sum [3, 4] ∧ (0:ℚ) ≤ 1 ∧ (0:ℚ) ≤ 0
      ∧ ∀ c : ℚ, 0 ≤ c → List.sum (scale_grads c [3, 4]) = c * List.sum [3, 4])
    ∧ List.sum (clip_grad_norm List.sum 1 0 [3, 4]) ≤ 1
    ∧ minibatch_update_trace.count UpdateEvent.optimStepE = 1 := by
  have hsum : List.sum ([3, 4] : List ℚ) = 7 := by
    simp [List.sum_cons, List.sum_nil]
    norm_num
  have hn : (0:ℚ) ≤ List.sum [3, 4] := by rw [hsum]; norm_num
  have hhom : ∀ c : ℚ, 0 ≤ c → List.sum (scale_grads c [3, 4]) = c * List.sum [3, 4] := by
    intro c hc
    simp [scale_grads, List.sum_cons, List.sum_nil]
    ring
  have main := grad_clip_bound List.sum [3, 4] 1 0 hn (by norm_num) le_rfl hhom
  exact ⟨⟨hn, by norm_num, le_rfl, hhom⟩, main.1, main.2.1⟩

/-- The fatal condition the Trajectory Store raises on a capacity
violation. -/
inductive StoreError where
  | capacityViolation
  deriving DecidableEq, Repr

/-- Modelled from the spec: the Trajectory Store's write state — a
fixed capacity of `num_steps` time-steps per rollout window and the rows
written since the window was last rewritten (the `Storage` class lives in
`procgenac.utils`, outside the provided sources). -/
structure Storage (Row : Type) where
  num_steps : ℕ
  rows : List Row

/-- Modelled from the spec: `Storage.store` appends one time-step of
transitions at the current write position and advances it; called beyond
`num_steps` times without an intervening reset it raises a fatal capacity
violation instead of wrapping or silently succeeding. -/
def Storage.store {Row : Type} (st : Storage Row) (r : Row) :
    Except StoreError (Storage Row) :=
  if st.rows.length < st.num_steps then
    Except.ok { st with rows := st.rows ++ [r] }
  else
    Except.error StoreError.capacityViolation

/-- A freshly reset rollout window: capacity `numSteps`, nothing written
yet. -/
def Storage.fresh (Row : Type) (numSteps : ℕ) : Storage Row :=
  ⟨numSteps, []⟩

/-- Sequencing of consecutive `store` calls, propagating the first fatal
error. -/
def storeMany {Row : Type} (st : Storage Row) : List Row → Except StoreError (Storage Row)
  | [] => Except.ok st
  | r :: rs =>
      match st.store r with
      | Except.ok st2 => storeMany st2 rs
      | Except.error e => Except.error e

theorem storeMany_overflow {Row : Type} :
    ∀ (rs : List Row) (st : Storage Row), st.rows.length ≤ st.num_steps →
      st.num_steps < st.rows.length + rs.length →
      storeMany st rs = Except.error StoreError.capacityViolation := by
  intro rs
  induction rs with
  | nil =>
    intro st hle hover
    simp only [List.length_nil, Nat.add_zero] at hover
    exact absurd hover (by omega)
  | cons r rs ih =>
    intro st hle hover
    by_cases hlt : st.rows.length < st.num_steps
    · simp only [storeMany, Storage.store, if_pos hlt]
      refine ih _ ?_ ?_
      · simp only [List.length_append, List.length_cons, List.length_nil]
        omega
      · simp only [List.length_append, List.length_cons, List.length_nil] at hover ⊢
        omega
    · simp only [storeMany, Storage.store, if_neg hlt]

/-- C8: calling `store` more times than `num_steps` between resets yields
the fatal capacity-violation error, never a silent success or wrap. -/
theorem store_capacity_violation {Row : Type} (numSteps : ℕ) (rs : List Row)
    (hover : numSteps < rs.length) :
    storeMany (Storage.fresh Row numSteps) rs
      = Except.error StoreError.capacityViolation :=
  storeMany_overflow rs (Storage.fresh Row numSteps)
    (by simp [Storage.fresh]) (by simpa [Storage.fresh] using hover)

/-- Witness for C8: a window of capacity 1 written twice fails fatally. -/
theorem store_capacity_violation_witness :
    (1 < ([(), ()] : List Unit).length)
    ∧ storeMany (Storage.fresh Unit 1) [(), ()]
        = Except.error StoreError.capacityViolation :=
  ⟨by decide, store_capacity_violation 1 [(), ()] (by decide)⟩

end Procgenac
